import Mathlib

/-!
Verification of the CEK power-outage extraction engine (`parse_cek.py` and
`custom_components/cek_power_outage/{coordinator,sensor}.py`).

The Python source is shallowly embedded below.  Strings are modelled as
`List Char` / `String`; the small regular expressions of the source
(`(\d{2}:\d{2})\s*(?:до|по)\s*(\d{2}:\d{2})` and friends) are modelled by
hand-written scanners with Python's leftmost / non-overlapping `findall`
semantics.  `coordinator.py` in the repository stores its Cyrillic literals
in a byte-mangled form (UTF-8 re-encoded through a legacy codec); the
mangling is applied consistently to both the producing and the consuming
literals of that file, so behaviour is identical to `parse_cek.py`, and the
embedding uses the plain Cyrillic text of `parse_cek.py` throughout.
-/

namespace Cek

/-- ASCII whitespace recognised by Python's `\s` / `str.strip` on the
character inventory this program manipulates. -/
def isWs (c : Char) : Bool :=
  c = ' ' || c = '\t' || c = '\n' || c = '\r' || c = '\x0b' || c = '\x0c'

/-- Python `str.strip()`: drop leading and trailing whitespace. -/
def pyStrip (l : List Char) : List Char :=
  ((l.dropWhile isWs).reverse.dropWhile isWs).reverse

/-- Python string comparison `a <= b`: lexicographic on code points. -/
def pyStrLe : List Char → List Char → Bool
  | [], _ => true
  | _ :: _, [] => false
  | a :: as, b :: bs => if a < b then true else if b < a then false else pyStrLe as bs

/-- Python string comparison `a < b`. -/
def pyStrLt : List Char → List Char → Bool
  | [], [] => false
  | [], _ :: _ => true
  | _ :: _, [] => false
  | a :: as, b :: bs => if a < b then true else if b < a then false else pyStrLt as bs

/-- Numeric value of a decimal digit character. -/
def digVal (c : Char) : Nat := c.toNat - 48

/-- Model of the regex fragment `\d{2}:\d{2}` matched at the head of the
input: returns the five matched characters and the rest. -/
def matchTime : List Char → Option (List Char × List Char)
  | a :: b :: c :: d :: e :: rest =>
    if a.isDigit && b.isDigit && c = ':' && d.isDigit && e.isDigit then
      some ([a, b, c, d, e], rest)
    else none
  | _ => none

/-- Greedy `\s*`. -/
def dropWs (l : List Char) : List Char := l.dropWhile isWs

/-- Match one of the literal separator words at the head of the input. -/
def matchSep : List (List Char) → List Char → Option (List Char)
  | [], _ => none
  | s :: ss, l => if s.isPrefixOf l then some (l.drop s.length) else matchSep ss l

/-- Model of matching `(\d{2}:\d{2})\s*(?:SEP1|SEP2|…)\s*(\d{2}:\d{2})` at
the head of the input; returns the two captured groups and the rest. -/
def tryRange (seps : List (List Char)) (l : List Char) :
    Option ((List Char × List Char) × List Char) :=
  (matchTime l).bind fun sr =>
    (matchSep seps (dropWs sr.2)).bind fun r3 =>
      (matchTime (dropWs r3)).map fun er => ((sr.1, er.1), er.2)

theorem length_dropWs_le (l : List Char) : (dropWs l).length ≤ l.length := by
  induction l with
  | nil => simp [dropWs]
  | cons a as ih =>
    simp only [dropWs, List.dropWhile_cons] at *
    split
    · simp only [List.length_cons]; omega
    · simp

theorem length_matchTime {l s r : List Char} (h : matchTime l = some (s, r)) :
    r.length + 5 = l.length := by
  rcases l with _ | ⟨a, _ | ⟨b, _ | ⟨c, _ | ⟨d, _ | ⟨e, rest⟩⟩⟩⟩⟩ <;>
    simp only [matchTime] at h
  all_goals try exact Option.noConfusion h
  split at h
  case isTrue =>
    injection h with h2
    injection h2 with h3 h4
    subst h4
    simp
  case isFalse => exact Option.noConfusion h

theorem length_matchSep {seps : List (List Char)} {l r : List Char}
    (h : matchSep seps l = some r) : r.length ≤ l.length := by
  induction seps with
  | nil => simp [matchSep] at h
  | cons s ss ih =>
    unfold matchSep at h
    split at h
    · simp only [Option.some.injEq] at h
      subst h
      simp [List.length_drop]
    · exact ih h

theorem length_tryRange {seps : List (List Char)} {l : List Char} {p : _} {r : List Char}
    (h : tryRange seps l = some (p, r)) : r.length < l.length := by
  simp only [tryRange, Option.bind_eq_some, Option.map_eq_some'] at h
  obtain ⟨⟨s, r1⟩, hm, r3, hs, ⟨e, r5⟩, hm2, hpr⟩ := h
  simp only [Prod.mk.injEq] at hpr
  obtain ⟨-, rfl⟩ := hpr
  dsimp only at hs
  have h1 := length_matchTime hm
  have h2 := length_matchSep hs
  have h3 := length_matchTime hm2
  have h4 := length_dropWs_le r1
  have h5 := length_dropWs_le r3
  omega

/-- Fuel-driven scanner loop; the fuel is only a structural-recursion
device, `findRanges` always supplies enough of it. -/
def findRangesAux (seps : List (List Char)) : Nat → List Char → List (List Char × List Char)
  | 0, _ => []
  | _, [] => []
  | fuel + 1, c :: rest =>
    match tryRange seps (c :: rest) with
    | some (p, r5) => p :: findRangesAux seps fuel r5
    | none => findRangesAux seps fuel rest

/-- Model of `re.findall` for the time-range pattern: scan left to right,
emit each non-overlapping match, resume after the end of a match. -/
def findRanges (seps : List (List Char)) (l : List Char) : List (List Char × List Char) :=
  findRangesAux seps l.length l

/-- The separators accepted by `extract_time_ranges`:
`(?:до|по)` in the source pattern. -/
def sepsDoPo : List (List Char) := [['д', 'о'], ['п', 'о']]

/-- The single separator `до` used by the primary extraction pattern in
`coordinator.py` and by `_is_outage_active`. -/
def sepsDo : List (List Char) := [['д', 'о']]

/-- Model of `parse_cek.extract_time_ranges` / `coordinator._extract_time_ranges`:
find every `(\d{2}:\d{2})\s*(?:до|по)\s*(\d{2}:\d{2})` and render the
captures as `f"{start} до {end}"`. -/
def extract_time_ranges (content : String) : List String :=
  (findRanges sepsDoPo content.data).map
    (fun p => String.mk (p.1 ++ (' ' :: 'д' :: 'о' :: ' ' :: p.2)))

/-- The time-range extraction of the primary path of
`coordinator._extract_first_schedule_block` (separator `до` only),
rendering the captures as `f"{start} до {end}"`. -/
def extract_time_ranges_primary (content : String) : List String :=
  (findRanges sepsDo content.data).map
    (fun p => String.mk (p.1 ++ (' ' :: 'д' :: 'о' :: ' ' :: p.2)))

/-- Canonical schedule-entry shape `HH:MM до HH:MM` with two-digit
hour and minute fields. -/
def isCanonical (s : String) : Bool :=
  match s.data with
  | [a, b, c, d, e, f, g, h, i, j, k, l, m, n] =>
    a.isDigit && b.isDigit && c = ':' && d.isDigit && e.isDigit &&
    f = ' ' && g = 'д' && h = 'о' && i = ' ' &&
    j.isDigit && k.isDigit && l = ':' && m.isDigit && n.isDigit
  | _ => false

theorem matchTime_shape {l s r : List Char} (h : matchTime l = some (s, r)) :
    ∃ a b d e, s = [a, b, ':', d, e] ∧
      a.isDigit ∧ b.isDigit ∧ d.isDigit ∧ e.isDigit := by
  rcases l with _ | ⟨a, _ | ⟨b, _ | ⟨c, _ | ⟨d, _ | ⟨e, rest⟩⟩⟩⟩⟩ <;>
    simp only [matchTime] at h
  all_goals try exact Option.noConfusion h
  split at h
  case isTrue hcond =>
    simp only [Bool.and_eq_true, decide_eq_true_eq] at hcond
    obtain ⟨⟨⟨⟨ha, hb⟩, hc⟩, hd⟩, he⟩ := hcond
    injection h with h2
    injection h2 with h3 h4
    subst h3
    exact ⟨a, b, d, e, by rw [hc], ha, hb, hd, he⟩
  case isFalse => exact Option.noConfusion h

theorem tryRange_shape {seps : List (List Char)} {l : List Char} {p : _} {r : List Char}
    (h : tryRange seps l = some (p, r)) :
    (∃ a b d e, p.1 = [a, b, ':', d, e] ∧
      a.isDigit ∧ b.isDigit ∧ d.isDigit ∧ e.isDigit) ∧
    (∃ a b d e, p.2 = [a, b, ':', d, e] ∧
      a.isDigit ∧ b.isDigit ∧ d.isDigit ∧ e.isDigit) := by
  simp only [tryRange, Option.bind_eq_some, Option.map_eq_some'] at h
  obtain ⟨⟨s, r1⟩, hm, r3, hs, ⟨e, r5⟩, hm2, hpr⟩ := h
  simp only [Prod.mk.injEq] at hpr
  obtain ⟨rfl, -⟩ := hpr
  exact ⟨matchTime_shape hm, matchTime_shape hm2⟩

theorem findRangesAux_shape {seps : List (List Char)} :
    ∀ (fuel : Nat) (l : List Char), ∀ p ∈ findRangesAux seps fuel l,
    (∃ a b d e, p.1 = [a, b, ':', d, e] ∧
      a.isDigit ∧ b.isDigit ∧ d.isDigit ∧ e.isDigit) ∧
    (∃ a b d e, p.2 = [a, b, ':', d, e] ∧
      a.isDigit ∧ b.isDigit ∧ d.isDigit ∧ e.isDigit) := by
  intro fuel
  induction fuel with
  | zero => intro l p hp; simp [findRangesAux] at hp
  | succ n ih =>
    intro l p hp
    cases l with
    | nil => simp [findRangesAux] at hp
    | cons c rest =>
      cases h : tryRange seps (c :: rest) with
      | some v =>
        obtain ⟨p', r5⟩ := v
        rw [findRangesAux, h] at hp
        rcases List.mem_cons.mp hp with h1 | h2
        · exact h1 ▸ tryRange_shape h
        · exact ih r5 p h2
      | none =>
        rw [findRangesAux, h] at hp
        exact ih rest p hp

theorem findRanges_shape {seps : List (List Char)} (l : List Char) :
    ∀ p ∈ findRanges seps l,
    (∃ a b d e, p.1 = [a, b, ':', d, e] ∧
      a.isDigit ∧ b.isDigit ∧ d.isDigit ∧ e.isDigit) ∧
    (∃ a b d e, p.2 = [a, b, ':', d, e] ∧
      a.isDigit ∧ b.isDigit ∧ d.isDigit ∧ e.isDigit) :=
  findRangesAux_shape l.length l

theorem canonical_of_shape {s e : List Char}
    (hs : ∃ a b d e', s = [a, b, ':', d, e'] ∧
      a.isDigit ∧ b.isDigit ∧ d.isDigit ∧ e'.isDigit)
    (he : ∃ a b d e', e = [a, b, ':', d, e'] ∧
      a.isDigit ∧ b.isDigit ∧ d.isDigit ∧ e'.isDigit) :
    isCanonical (String.mk (s ++ (' ' :: 'д' :: 'о' :: ' ' :: e))) := by
  obtain ⟨a, b, d, e1, rfl, ha, hb, hd, he1⟩ := hs
  obtain ⟨a2, b2, d2, e2, rfl, ha2, hb2, hd2, he2⟩ := he
  simp [isCanonical, ha, hb, hd, he1, ha2, hb2, hd2, he2]

/-- The merge step of `parse_cek.parse_cek_page` / `coordinator._fetch_data`:
`if update_schedule: schedule = update_schedule; has_update = True`
`else: schedule = main_schedule; has_update = update_announcement is not None`.
Python truthiness makes both `None` and the empty list take the `else` branch. -/
def mergeSchedules (main : List String) (update : Option (List String))
    (updateAnnouncement : Option String) : List String × Bool :=
  match update with
  | some u => if u.isEmpty then (main, updateAnnouncement.isSome) else (u, true)
  | none => (main, updateAnnouncement.isSome)

/-- C1: the effective schedule equals the override schedule when the latter
is non-empty and the primary schedule otherwise (regardless of the primary
extractor's result), and `has_update` is true iff the override schedule is
non-empty or an override announcement line was found. -/
theorem C1_merge_policy (main : List String) (update : Option (List String))
    (ann : Option String) :
    ((∀ u, update = some u → u ≠ [] → (mergeSchedules main update ann).1 = u) ∧
     ((update = none ∨ update = some []) → (mergeSchedules main update ann).1 = main)) ∧
    ((mergeSchedules main update ann).2 = true ↔
      (∃ u, update = some u ∧ u ≠ []) ∨ ann.isSome = true) := by
  refine ⟨⟨?_, ?_⟩, ?_⟩
  · intro u hu hne
    subst hu
    simp [mergeSchedules, List.isEmpty_iff, hne]
  · rintro (rfl | rfl) <;> simp [mergeSchedules]
  · cases update with
    | none => simp [mergeSchedules]
    | some u =>
      cases u with
      | nil => simp [mergeSchedules]
      | cons x xs => simp [mergeSchedules]

/-- Witness for C1 at concrete inputs: a non-empty override replaces the
primary schedule outright and forces the update flag. -/
theorem C1_merge_policy_witness :
    (mergeSchedules ["00:00 до 02:00"] (some ["03:00 до 07:00"]) none).1
        = ["03:00 до 07:00"] ∧
    ((mergeSchedules ["00:00 до 02:00"] (some ["03:00 до 07:00"]) none).2 = true ↔
      (∃ u, (some ["03:00 до 07:00"] : Option (List String)) = some u ∧ u ≠ []) ∨
        (none : Option String).isSome = true) :=
  ⟨(C1_merge_policy ["00:00 до 02:00"] (some ["03:00 до 07:00"]) none).1.1
      ["03:00 до 07:00"] rfl (by decide),
   (C1_merge_policy ["00:00 до 02:00"] (some ["03:00 до 07:00"]) none).2⟩

/-- C8: every string produced by either extraction path — the override-aware
`extract_time_ranges` (which also accepts the separator word `по` and
normalizes it to `до`) or the primary `до`-only extraction — has the
canonical form `"HH:MM до HH:MM"` with two-digit hour and minute fields. -/
theorem C8_schedule_entry_format (content : String) (s : String)
    (h : s ∈ extract_time_ranges content ∨ s ∈ extract_time_ranges_primary content) :
    isCanonical s = true := by
  rcases h with h | h
  · obtain ⟨p, hp, rfl⟩ := List.mem_map.mp h
    obtain ⟨hs, he⟩ := findRanges_shape _ p hp
    exact canonical_of_shape hs he
  · obtain ⟨p, hp, rfl⟩ := List.mem_map.mp h
    obtain ⟨hs, he⟩ := findRanges_shape _ p hp
    exact canonical_of_shape hs he

/-- Witness for C8: a `по`-separated source range is emitted in canonical
`до` form. -/
theorem C8_schedule_entry_format_witness :
    ("03:00 до 07:00" ∈ extract_time_ranges "з 03:00 по 07:00" ∨
      "03:00 до 07:00" ∈ extract_time_ranges_primary "з 03:00 по 07:00") ∧
    isCanonical "03:00 до 07:00" = true :=
  ⟨Or.inl (by decide),
   C8_schedule_entry_format "з 03:00 по 07:00" "03:00 до 07:00" (Or.inl (by decide))⟩

/-- Case folding as performed by `str.lower()` / `re.IGNORECASE`, on the character
inventory this program manipulates (ASCII letters and the Ukrainian
Cyrillic alphabet). -/
def lowerChar (c : Char) : Char :=
  if 'A' ≤ c ∧ c ≤ 'Z' then Char.ofNat (c.toNat + 32)
  else if 'А' ≤ c ∧ c ≤ 'Я' then Char.ofNat (c.toNat + 32)
  else if c = 'І' then 'і'
  else if c = 'Ї' then 'ї'
  else if c = 'Є' then 'є'
  else if c = 'Ґ' then 'ґ'
  else c

/-- Python `str.lower()` on a whole string. -/
def lowerStr (l : List Char) : List Char := l.map lowerChar

/-- Case-insensitive literal match at the head of the input. -/
def prefixCI : List Char → List Char → Bool
  | [], _ => true
  | _ :: _, [] => false
  | a :: as, b :: bs => lowerChar a = lowerChar b && prefixCI as bs

/-- Python substring test `needle in hay`. -/
def containsSub (hay needle : List Char) : Bool :=
  if needle.isPrefixOf hay then true
  else match hay with
    | [] => false
    | _ :: t => containsSub t needle

/-- Suffix of `hay` starting at the first position where the literal
`needle` matches case-insensitively (the leftmost-match rule of
`re.search` with `re.IGNORECASE`); `none` if there is no occurrence. -/
def suffixFromCI (needle : List Char) (hay : List Char) : Option (List Char) :=
  if prefixCI needle hay then some hay
  else match hay with
    | [] => none
    | _ :: t => suffixFromCI needle t

/-- The lookahead `(?=<p>📢|<p>&nbsp;</p>\s*<p>📢|$)` that delimits the
override section (`$` also matches just before a single trailing newline). -/
def isSectionEnd (l : List Char) : Bool :=
  prefixCI "<p>📢".data l ||
  (prefixCI "<p>&nbsp;</p>".data l &&
    prefixCI "<p>📢".data (dropWs (l.drop "<p>&nbsp;</p>".data.length))) ||
  l.isEmpty || l = ['\n']

/-- The lazy `.*?` of the override-section pattern: consume characters up
to the earliest position where the section-end lookahead matches. -/
def takeToEnd : List Char → List Char
  | [] => []
  | c :: t => if isSectionEnd (c :: t) then [] else c :: takeToEnd t

/-- The span matched by
`re.search(r'зміни в ГПВ.*?(?=<p>📢|<p>&nbsp;</p>\s*<p>📢|$)', html,
re.IGNORECASE | re.DOTALL)`: `none` iff the phrase does not occur;
otherwise the phrase occurrence followed by everything up to the first
section-end position. -/
def updateSectionSpan (html : List Char) : Option (List Char) :=
  (suffixFromCI "зміни в ГПВ".data html).map fun suf =>
    suf.take "зміни в ГПВ".data.length ++ takeToEnd (suf.drop "зміни в ГПВ".data.length)

/-- Whether the override ("зміни в ГПВ") section exists in the document,
i.e. whether the section regex matches at all. -/
def hasUpdateSection (html : String) : Bool := (updateSectionSpan html.data).isSome

/-- The sub-block match of `re.search(rf"📌\s*{q}(?:\s*черга)?[^📌]*", sec,
re.IGNORECASE | re.DOTALL)`: scan for a `📌` followed (after optional
whitespace) by the queue identifier; the match then extends greedily to
the next `📌` or the end of the section. -/
def queueBlockFrom (q : List Char) : List Char → Option (List Char)
  | [] => none
  | c :: t =>
    if c = '📌' && prefixCI q (dropWs t) then
      some ('📌' :: t.takeWhile (fun d => d ≠ '📌'))
    else queueBlockFrom q t

/-- Model of `parse_cek.extract_update_schedule` / `coordinator._extract_update_schedule`:
extract the schedule of the given queue from the "зміни в ГПВ" override
section.  Returns `none` if the section regex does not match or if the
queue's `📌` sub-block is not found inside it. -/
def extract_update_schedule (html : String) (queue : String) : Option (List String) :=
  match updateSectionSpan html.data with
  | none => none
  | some sec =>
    match queueBlockFrom queue.data sec with
    | some content => some (extract_time_ranges (String.mk content))
    | none => none

/-- C4 (counterexample): a document that does contain the override section
(`"зміни в ГПВ"` occurs) but no `📌` sub-block for the queue; the resolver
returns `none`, not an empty sequence, so `none` does not characterise
"no override section exists". -/
theorem C4_counterexample :
    hasUpdateSection "Повідомляємо про зміни в ГПВ сьогодні" = true ∧
    extract_update_schedule "Повідомляємо про зміни в ГПВ сьогодні" "6.2" = none := by
  constructor
  · decide
  · decide

/-- C4 (amended): the Override Resolver returns `none` exactly when the
override section is absent **or** the section exists but contains no `📌`
sub-block for the queue; it returns a (possibly empty) sequence exactly
when both the section and the queue sub-block exist. -/
theorem C4_update_resolver (html q : String) :
    (hasUpdateSection html = false → extract_update_schedule html q = none) ∧
    ((extract_update_schedule html q).isSome = true ↔
      ∃ sec, updateSectionSpan html.data = some sec ∧
        (queueBlockFrom q.data sec).isSome = true) := by
  constructor
  · intro h
    cases hs : updateSectionSpan html.data with
    | none => simp [extract_update_schedule, hs]
    | some sec => rw [hasUpdateSection, hs] at h; simp at h
  · constructor
    · intro h
      cases hs : updateSectionSpan html.data with
      | none => simp [extract_update_schedule, hs] at h
      | some sec =>
        cases hq : queueBlockFrom q.data sec with
        | none => simp [extract_update_schedule, hs, hq] at h
        | some content => exact ⟨sec, rfl, by simp [hq]⟩
    · rintro ⟨sec, hs, hq⟩
      rw [Option.isSome_iff_exists] at hq
      obtain ⟨content, hq⟩ := hq
      simp [extract_update_schedule, hs, hq]

/-- Witness for C4 (amended) at concrete inputs: with the section and the
queue sub-block both present the resolver returns a sequence. -/
theorem C4_update_resolver_witness :
    hasUpdateSection "зміни в ГПВ 📌 6.2 з 03:00 по 07:00" = true ∧
    ((extract_update_schedule "зміни в ГПВ 📌 6.2 з 03:00 по 07:00" "6.2").isSome = true ↔
      ∃ sec, updateSectionSpan "зміни в ГПВ 📌 6.2 з 03:00 по 07:00".data = some sec ∧
        (queueBlockFrom "6.2".data sec).isSome = true) :=
  ⟨by decide, (C4_update_resolver "зміни в ГПВ 📌 6.2 з 03:00 по 07:00" "6.2").2⟩

/-- C10: when the override section exists and contains a `📌` sub-block for
the queue whose content yields zero parseable time ranges, the resolver
returns the empty sequence, and the merge policy then behaves exactly as
for an absent override: the primary schedule becomes effective and
`has_update` is the presence of the override announcement line. -/
theorem C10_empty_override (html q : String) (main : List String) (ann : Option String)
    (sec content : List Char)
    (hsec : updateSectionSpan html.data = some sec)
    (hqb : queueBlockFrom q.data sec = some content)
    (hempty : extract_time_ranges (String.mk content) = []) :
    extract_update_schedule html q = some [] ∧
    mergeSchedules main (extract_update_schedule html q) ann = (main, ann.isSome) := by
  have h1 : extract_update_schedule html q = some [] := by
    simp [extract_update_schedule, hsec, hqb, hempty]
  refine ⟨h1, ?_⟩
  rw [h1]
  simp [mergeSchedules]

/-- Witness for C10 at concrete inputs: an override section naming the
queue but listing no time ranges. -/
theorem C10_empty_override_witness :
    extract_update_schedule "зміни в ГПВ 📌 6.2 немає відключень" "6.2" = some [] ∧
    mergeSchedules ["00:00 до 02:00"]
        (extract_update_schedule "зміни в ГПВ 📌 6.2 немає відключень" "6.2")
        (some "Повідомляємо про зміни в ГПВ") =
      (["00:00 до 02:00"], (some "Повідомляємо про зміни в ГПВ" : Option String).isSome) :=
  C10_empty_override "зміни в ГПВ 📌 6.2 немає відключень" "6.2"
    ["00:00 до 02:00"] (some "Повідомляємо про зміни в ГПВ")
    "зміни в ГПВ 📌 6.2 немає відключень".data
    "📌 6.2 немає відключень".data
    (by decide) (by decide) (by decide)

/-- One tokenizer event delivered by Python's `html.parser.HTMLParser` to
the `TextExtractor` callbacks (`handle_starttag` / `handle_endtag` /
`handle_data`). -/
inductive HTok where
  | startTag (name : String)
  | endTag (name : String)
  | data (s : String)

/-- The set `TextExtractor._skip_tags = {"script", "style", "noscript"}`. -/
def skipTags : List String := ["script", "style", "noscript"]

/-- One callback step of `TextExtractor`: the state is the accumulated
`text_parts` plus the single boolean `_current_skip` flag. -/
def feedTok : List String × Bool → HTok → List String × Bool
  | (acc, sk), .startTag t => (acc, if t ∈ skipTags then true else sk)
  | (acc, sk), .endTag t => (acc, if t ∈ skipTags then false else sk)
  | (acc, sk), .data d =>
    if sk then (acc, sk)
    else
      let t := pyStrip d.data
      if t.isEmpty then (acc, sk) else (acc ++ [String.mk t], sk)

/-- A `TextExtractor` run over a token stream: the `text_parts` list
(`extract_text_from_html` joins it with newlines; the joining is
irrelevant to the extraction contract and omitted). -/
def extractText (toks : List HTok) : List String :=
  (toks.foldl feedTok ([], false)).1

/-- The extraction contract as the spec states it: a data token is emitted
(trimmed, dropped when empty, in source order) iff it is not nested inside
any open script/style/noscript element; `d` counts the currently open
skip elements. -/
def specExtract (d : Nat) : List HTok → List String
  | [] => []
  | .startTag t :: r => specExtract (if t ∈ skipTags then d + 1 else d) r
  | .endTag t :: r => specExtract (if t ∈ skipTags then d - 1 else d) r
  | .data s :: r =>
    if d = 0 && !(pyStrip s.data).isEmpty
    then String.mk (pyStrip s.data) :: specExtract d r
    else specExtract d r

/-- No skip element opens while another one is already open (`d` is the
number of currently open skip elements). -/
def nonNestedSkip (d : Nat) : List HTok → Bool
  | [] => true
  | .startTag t :: r =>
    if t ∈ skipTags then d = 0 && nonNestedSkip 1 r else nonNestedSkip d r
  | .endTag t :: r => nonNestedSkip (if t ∈ skipTags then d - 1 else d) r
  | .data _ :: r => nonNestedSkip d r

theorem feedTok_spec (toks : List HTok) :
    ∀ (acc : List String) (d : Nat), nonNestedSkip d toks = true → d ≤ 1 →
    (toks.foldl feedTok (acc, decide (0 < d))).1 = acc ++ specExtract d toks := by
  induction toks with
  | nil => intro acc d _ _; simp [specExtract]
  | cons tok rest ih =>
    intro acc d hnn hd
    cases tok with
    | startTag t =>
      rw [nonNestedSkip] at hnn
      by_cases ht : t ∈ skipTags
      · simp only [ht, if_true, Bool.and_eq_true, decide_eq_true_eq] at hnn
        obtain ⟨hd0, hnn1⟩ := hnn
        subst hd0
        have := ih acc 1 hnn1 (by omega)
        simpa [List.foldl_cons, feedTok, ht, specExtract] using this
      · simp only [ht, if_false] at hnn
        have := ih acc d hnn hd
        simpa [List.foldl_cons, feedTok, ht, specExtract] using this
    | endTag t =>
      rw [nonNestedSkip] at hnn
      by_cases ht : t ∈ skipTags
      · rw [if_pos ht] at hnn
        have hd1 : d - 1 = 0 := by omega
        have := ih acc (d - 1) hnn (by omega)
        simpa [List.foldl_cons, feedTok, ht, specExtract, hd1] using this
      · simp only [ht, if_false] at hnn ⊢
        have := ih acc d (by simpa [ht] using hnn) hd
        simpa [List.foldl_cons, feedTok, ht, specExtract] using this
    | data s =>
      rw [nonNestedSkip] at hnn
      rcases Nat.eq_zero_or_pos d with hd0 | hdpos
      · subst hd0
        by_cases he : (pyStrip s.data).isEmpty
        · have := ih acc 0 hnn (by omega)
          simpa [List.foldl_cons, feedTok, specExtract, he] using this
        · have := ih (acc ++ [String.mk (pyStrip s.data)]) 0 hnn (by omega)
          simpa [List.foldl_cons, feedTok, specExtract, he] using this
      · have hne : ¬ d = 0 := by omega
        have := ih acc d hnn hd
        simpa [List.foldl_cons, feedTok, specExtract, hdpos, hne] using this

/-- C6 (amended): for every token stream in which script/style/noscript
elements are not nested inside one another, the extractor emits exactly
the data tokens lying outside all such elements, trimmed, with empty
results dropped, in source order.  (The restriction is needed because the
extractor's skip state is one boolean: any skip element's end tag clears
it.) -/
theorem C6_text_extractor (toks : List HTok) (h : nonNestedSkip 0 toks = true) :
    extractText toks = specExtract 0 toks := by
  have := feedTok_spec toks [] 0 h (by omega)
  simpa [extractText] using this

/-- Witness for C6 (amended) at a concrete stream. -/
theorem C6_text_extractor_witness :
    nonNestedSkip 0
        [HTok.startTag "noscript", HTok.data "hidden", HTok.endTag "noscript",
          HTok.data " hello "] = true ∧
    extractText
        [HTok.startTag "noscript", HTok.data "hidden", HTok.endTag "noscript",
          HTok.data " hello "] =
      specExtract 0
        [HTok.startTag "noscript", HTok.data "hidden", HTok.endTag "noscript",
          HTok.data " hello "] :=
  ⟨by decide,
   C6_text_extractor
     [HTok.startTag "noscript", HTok.data "hidden", HTok.endTag "noscript",
       HTok.data " hello "] (by decide)⟩

/-- C6 (counterexample): in the document
`<noscript><style></style>leaked</noscript>` the text `leaked` is nested
inside a `noscript` element (the tokenizer delivers these five events),
yet the extractor emits it: the inner `</style>` clears the single skip
flag.  The spec-side extraction excludes it. -/
theorem C6_counterexample :
    extractText
        [HTok.startTag "noscript", HTok.startTag "style", HTok.endTag "style",
          HTok.data "leaked", HTok.endTag "noscript"] = ["leaked"] ∧
    specExtract 0
        [HTok.startTag "noscript", HTok.startTag "style", HTok.endTag "style",
          HTok.data "leaked", HTok.endTag "noscript"] = [] := by
  constructor
  · decide
  · decide

/-- A Python `datetime` value at the granularity this program uses
(`second`/`microsecond` are always zero on constructed instants; both
compared instants carry the same timezone, so comparison is lexicographic
on the fields). -/
structure PyDateTime where
  year : Nat
  month : Nat
  day : Nat
  hour : Nat
  minute : Nat
deriving DecidableEq, Repr

/-- Python `<` on (same-timezone) `datetime` values. -/
def dtLt (a b : PyDateTime) : Bool :=
  if a.year ≠ b.year then decide (a.year < b.year)
  else if a.month ≠ b.month then decide (a.month < b.month)
  else if a.day ≠ b.day then decide (a.day < b.day)
  else if a.hour ≠ b.hour then decide (a.hour < b.hour)
  else decide (a.minute < b.minute)

/-- Python `<=` on (same-timezone) `datetime` values. -/
def dtLe (a b : PyDateTime) : Bool := !dtLt b a

theorem dtLt_irrefl (a : PyDateTime) : dtLt a a = false := by
  simp [dtLt]

theorem dtLe_refl (a : PyDateTime) : dtLe a a = true := by
  simp [dtLe, dtLt_irrefl]

/-- Gregorian leap year, as `datetime` validates it. -/
def isLeap (y : Nat) : Bool := (y % 4 = 0 && y % 100 ≠ 0) || y % 400 = 0

/-- Number of days of month `m` of year `y` (for `m` in `1..12`). -/
def daysInMonth (y m : Nat) : Nat :=
  if m = 2 then (if isLeap y then 29 else 28)
  else if m = 4 || m = 6 || m = 9 || m = 11 then 30
  else 31

/-- Whether `datetime(year, month, day)` succeeds for a month in `1..12`:
exactly the day-of-month validation whose `ValueError` the projector
catches. -/
def isValidDay (y m d : Nat) : Bool := 1 ≤ d && d ≤ daysInMonth y m

/-- The table `UKRAINIAN_MONTHS` of `const.py` / `parse_cek.py`: twelve upper-case
spellings followed by the twelve lower-case ones. -/
def UKRAINIAN_MONTHS : List String :=
  ["СІЧНЯ", "ЛЮТОГО", "БЕРЕЗНЯ", "КВІТНЯ", "ТРАВНЯ", "ЧЕРВНЯ",
   "ЛИПНЯ", "СЕРПНЯ", "ВЕРЕСНЯ", "ЖОВТНЯ", "ЛИСТОПАДА", "ГРУДНЯ",
   "січня", "лютого", "березня", "квітня", "травня", "червня",
   "липня", "серпня", "вересня", "жовтня", "листопада", "грудня"]

/-- The month-determination loop of `_calculate_next_outage`:
`for idx, month_name in enumerate(UKRAINIAN_MONTHS[:12]):`
`  if month_name.lower() in date_str.lower(): month = idx + 1; break`. -/
def findMonthAux : Nat → List String → List Char → Option Nat
  | _, [], _ => none
  | i, mname :: rest, ds =>
    if containsSub (lowerStr ds) (lowerStr mname.data) then some (i + 1)
    else findMonthAux (i + 1) rest ds

def findMonth (dateStr : String) : Option Nat :=
  findMonthAux 0 (UKRAINIAN_MONTHS.take 12) dateStr.data

/-- Model of `re.match(r"(\d{1,2})", date_str)`: a greedy 1-2 digit number anchored
at the start. -/
def parseLeadingDay : List Char → Option Nat
  | [] => none
  | a :: rest =>
    if a.isDigit then
      match rest with
      | b :: _ => if b.isDigit then some (10 * digVal a + digVal b) else some (digVal a)
      | [] => some (digVal a)
    else none

/-- Model of `re.match(r"(\d{2}):(\d{2})", time_range)` with the two groups read as
numbers. -/
def matchHM (l : List Char) : Option (Nat × Nat) :=
  match l with
  | a :: b :: c :: d :: e :: _ =>
    if a.isDigit && b.isDigit && c = ':' && d.isDigit && e.isDigit then
      some (10 * digVal a + digVal b, 10 * digVal d + digVal e)
    else none
  | _ => none

/-- The schedule loop of `_calculate_next_outage`: for each entry whose
head parses as `HH:MM`, build `outage_date.replace(hour=…, minute=…)` and
return the first instant strictly after `now`.  `replace` raises
`ValueError` for an hour above 23 or a minute above 59; the surrounding
`try` turns that into `None` for the whole computation. -/
def scanSchedule (y m d : Nat) (now : PyDateTime) : List String → Option PyDateTime
  | [] => none
  | tr :: rest =>
    match matchHM tr.data with
    | none => scanSchedule y m d now rest
    | some (h, mi) =>
      if h ≤ 23 && mi ≤ 59 then
        if dtLt now ⟨y, m, d, h, mi⟩ then some ⟨y, m, d, h, mi⟩
        else scanSchedule y m d now rest
      else none

/-- Model of `coordinator._calculate_next_outage`.  Total by construction: the
`try/except (ValueError, AttributeError)` of the source corresponds to the
explicit `none` results. -/
def calculate_next_outage (schedule : List String) (dateStr : Option String)
    (now : PyDateTime) : Option PyDateTime :=
  if schedule.isEmpty then none
  else match dateStr with
  | none => none
  | some ds =>
    match parseLeadingDay ds.data with
    | none => none
    | some day =>
      match findMonth ds with
      | none => none
      | some month =>
        let year := if month < now.month then now.year + 1 else now.year
        if isValidDay year month day then
          scanSchedule year month day now schedule
        else none

/-- The start instants of the parseable entries of a schedule, placed on
the resolved calendar date. -/
def scheduleStartInstants (schedule : List String) (y m d : Nat) : List PyDateTime :=
  schedule.filterMap fun tr => (matchHM tr.data).map fun p => ⟨y, m, d, p.1, p.2⟩

theorem scanSchedule_fields {y m d : Nat} {now t : PyDateTime} :
    ∀ {sched : List String}, scanSchedule y m d now sched = some t →
    t.year = y ∧ t.month = m ∧ t.day = d := by
  intro sched
  induction sched with
  | nil => intro h; simp [scanSchedule] at h
  | cons tr rest ih =>
    intro h
    rw [scanSchedule] at h
    cases hm : matchHM tr.data with
    | none => simp only [hm] at h; exact ih h
    | some p =>
      obtain ⟨hh, mi⟩ := p
      simp only [hm] at h
      split at h
      · split at h
        · injection h with h2
          subst h2
          exact ⟨rfl, rfl, rfl⟩
        · exact ih h
      · exact Option.noConfusion h

theorem scanSchedule_gt {y m d : Nat} {now t : PyDateTime} :
    ∀ {sched : List String}, scanSchedule y m d now sched = some t →
    dtLt now t = true := by
  intro sched
  induction sched with
  | nil => intro h; simp [scanSchedule] at h
  | cons tr rest ih =>
    intro h
    rw [scanSchedule] at h
    cases hm : matchHM tr.data with
    | none => simp only [hm] at h; exact ih h
    | some p =>
      obtain ⟨hh, mi⟩ := p
      simp only [hm] at h
      split at h
      · split at h
        case isTrue hlt =>
          injection h with h2
          subst h2
          exact hlt
        case isFalse => exact ih h
      · exact Option.noConfusion h

theorem scanSchedule_min {y m d : Nat} {now t : PyDateTime} :
    ∀ {sched : List String}, scanSchedule y m d now sched = some t →
    List.Pairwise (fun a b => dtLe a b = true) (scheduleStartInstants sched y m d) →
    ∀ s ∈ scheduleStartInstants sched y m d, dtLt now s = true → dtLe t s = true := by
  intro sched
  induction sched with
  | nil => intro h; simp [scanSchedule] at h
  | cons tr rest ih =>
    intro h hpw s hs hnow
    rw [scanSchedule] at h
    cases hm : matchHM tr.data with
    | none =>
      simp only [hm] at h
      have hinst : scheduleStartInstants (tr :: rest) y m d
          = scheduleStartInstants rest y m d := by
        simp [scheduleStartInstants, List.filterMap_cons, hm]
      rw [hinst] at hpw hs
      exact ih h hpw s hs hnow
    | some p =>
      obtain ⟨hh, mi⟩ := p
      simp only [hm] at h
      have hinst : scheduleStartInstants (tr :: rest) y m d
          = ⟨y, m, d, hh, mi⟩ :: scheduleStartInstants rest y m d := by
        simp [scheduleStartInstants, List.filterMap_cons, hm]
      rw [hinst] at hpw hs
      split at h
      · split at h
        case isTrue hlt =>
          injection h with h2
          subst h2
          rcases List.mem_cons.mp hs with rfl | hs2
          · exact dtLe_refl _
          · exact (List.pairwise_cons.mp hpw).1 s hs2
        case isFalse hnlt =>
          rcases List.mem_cons.mp hs with rfl | hs2
          · exact absurd hnow (by simpa using hnlt)
          · exact ih h (List.pairwise_cons.mp hpw).2 s hs2 hnow
      · exact Option.noConfusion h

/-- C3 (amended): when the next-outage instant is present it is strictly
after `now`, and it is the start of the *first entry in schedule order*
whose start lies strictly after `now`; whenever the parseable start
instants of the schedule appear in nondecreasing order (which the site's
blocks do), it is therefore the minimum start instant among all ranges
starting after `now`. -/
theorem C3_next_outage (sched : List String) (dateStr : Option String)
    (now t : PyDateTime) (h : calculate_next_outage sched dateStr now = some t) :
    dtLt now t = true ∧
    (List.Pairwise (fun a b => dtLe a b = true)
        (scheduleStartInstants sched t.year t.month t.day) →
      ∀ s ∈ scheduleStartInstants sched t.year t.month t.day,
        dtLt now s = true → dtLe t s = true) := by
  rw [calculate_next_outage.eq_def] at h
  split at h
  · exact Option.noConfusion h
  · rcases dateStr with - | ds
    · simp at h
    · simp only at h
      cases hd : parseLeadingDay ds.data with
      | none => simp only [hd] at h; exact Option.noConfusion h
      | some day =>
        simp only [hd] at h
        cases hmo : findMonth ds with
        | none => simp only [hmo] at h; exact Option.noConfusion h
        | some month =>
          simp only [hmo] at h
          have key : ∀ yr : Nat,
              (if isValidDay yr month day = true
                then scanSchedule yr month day now sched else none) = some t →
              dtLt now t = true ∧
              (List.Pairwise (fun a b => dtLe a b = true)
                  (scheduleStartInstants sched t.year t.month t.day) →
                ∀ s ∈ scheduleStartInstants sched t.year t.month t.day,
                  dtLt now s = true → dtLe t s = true) := by
            intro yr hyr
            split at hyr
            · obtain ⟨hy, hmn, hdy⟩ := scanSchedule_fields hyr
              rw [hy, hmn, hdy]
              exact ⟨scanSchedule_gt hyr,
                fun hpw s hs hnow => scanSchedule_min hyr hpw s hs hnow⟩
            · exact Option.noConfusion hyr
          exact key _ h

/-- Witness for C3 (amended) at concrete inputs. -/
theorem C3_next_outage_witness :
    calculate_next_outage ["05:00 до 06:00", "10:00 до 11:00"] (some "5 січня")
        ⟨2026, 1, 1, 0, 0⟩ = some ⟨2026, 1, 5, 5, 0⟩ ∧
    dtLt ⟨2026, 1, 1, 0, 0⟩ ⟨2026, 1, 5, 5, 0⟩ = true ∧
    (List.Pairwise (fun a b => dtLe a b = true)
        (scheduleStartInstants ["05:00 до 06:00", "10:00 до 11:00"] 2026 1 5) →
      ∀ s ∈ scheduleStartInstants ["05:00 до 06:00", "10:00 до 11:00"] 2026 1 5,
        dtLt ⟨2026, 1, 1, 0, 0⟩ s = true → dtLe ⟨2026, 1, 5, 5, 0⟩ s = true) := by
  have h0 : calculate_next_outage ["05:00 до 06:00", "10:00 до 11:00"] (some "5 січня")
      ⟨2026, 1, 1, 0, 0⟩ = some ⟨2026, 1, 5, 5, 0⟩ := by decide
  have := C3_next_outage ["05:00 до 06:00", "10:00 до 11:00"] (some "5 січня")
    ⟨2026, 1, 1, 0, 0⟩ ⟨2026, 1, 5, 5, 0⟩ h0
  exact ⟨h0, this.1, this.2⟩

/-- C3 (counterexample): with an unsorted schedule the code returns the
first listed future start (`10:00`), although a later-listed range starts
at `05:00`, strictly between `now` and the returned instant — so the
returned instant is not in general the minimum future start. -/
theorem C3_counterexample :
    calculate_next_outage ["10:00 до 11:00", "05:00 до 06:00"] (some "5 січня")
        ⟨2026, 1, 1, 0, 0⟩ = some ⟨2026, 1, 5, 10, 0⟩ ∧
    (⟨2026, 1, 5, 5, 0⟩ : PyDateTime) ∈
        scheduleStartInstants ["10:00 до 11:00", "05:00 до 06:00"] 2026 1 5 ∧
    dtLt ⟨2026, 1, 1, 0, 0⟩ ⟨2026, 1, 5, 5, 0⟩ = true ∧
    dtLt ⟨2026, 1, 5, 5, 0⟩ ⟨2026, 1, 5, 10, 0⟩ = true := by
  refine ⟨by decide, by decide, by decide, by decide⟩

/-- C5: year resolution — the next-outage instant carries the current
year, advanced by one exactly when the token's month number strictly
precedes the current month number. -/
theorem C5_year_resolution (sched : List String) (ds : String) (now t : PyDateTime)
    (month : Nat) (hmo : findMonth ds = some month)
    (h : calculate_next_outage sched (some ds) now = some t) :
    (month < now.month → t.year = now.year + 1) ∧
    (¬ month < now.month → t.year = now.year) := by
  rw [calculate_next_outage.eq_def] at h
  split at h
  · exact Option.noConfusion h
  · simp only at h
    cases hd : parseLeadingDay ds.data with
    | none => simp only [hd] at h; exact Option.noConfusion h
    | some day =>
      simp only [hd, hmo] at h
      by_cases hlt : month < now.month
      · rw [if_pos hlt] at h
        split at h
        · have hy := (scanSchedule_fields h).1
          exact ⟨fun _ => hy, fun hc => absurd hlt hc⟩
        · exact Option.noConfusion h
      · rw [if_neg hlt] at h
        split at h
        · have hy := (scanSchedule_fields h).1
          exact ⟨fun hc => absurd hc hlt, fun _ => hy⟩
        · exact Option.noConfusion h

/-- Witness for C5: the scenario of the spec — token `"5 січня"` (January)
evaluated in November of year 2025 resolves to year 2026. -/
theorem C5_year_resolution_witness :
    findMonth "5 січня" = some 1 ∧
    calculate_next_outage ["00:00 до 02:00"] (some "5 січня") ⟨2025, 11, 18, 12, 0⟩
      = some ⟨2026, 1, 5, 0, 0⟩ ∧
    ((1 < (11 : Nat) → (2026 : Nat) = 2025 + 1) ∧
     (¬ 1 < (11 : Nat) → (2026 : Nat) = 2025)) :=
  ⟨by decide, by decide,
   C5_year_resolution ["00:00 до 02:00"] "5 січня" ⟨2025, 11, 18, 12, 0⟩
     ⟨2026, 1, 5, 0, 0⟩ 1 (by decide) (by decide)⟩

/-- C7: when the extracted day/month combination does not form a valid
calendar date on the resolved year, the next-outage computation returns
`none`.  (`calculate_next_outage` is a total function: the `ValueError`
raised by `datetime(...)` in the source is caught by the surrounding
`try` and modelled by the explicit `none` branch.) -/
theorem C7_malformed_date (sched : List String) (ds : String) (now : PyDateTime)
    (day month : Nat) (hd : parseLeadingDay ds.data = some day)
    (hmo : findMonth ds = some month)
    (hbad : isValidDay (if month < now.month then now.year + 1 else now.year) month day
      = false) :
    calculate_next_outage sched (some ds) now = none := by
  rw [calculate_next_outage.eq_def]
  split
  · rfl
  · simp [hd, hmo, hbad]

/-- Witness for C7: day 31 of February yields `none`. -/
theorem C7_malformed_date_witness :
    parseLeadingDay "31 лютого".data = some 31 ∧
    findMonth "31 лютого" = some 2 ∧
    isValidDay 2025 2 31 = false ∧
    calculate_next_outage ["00:00 до 02:00"] (some "31 лютого") ⟨2025, 1, 1, 0, 0⟩
      = none :=
  ⟨by decide, by decide, by decide,
   C7_malformed_date ["00:00 до 02:00"] "31 лютого" ⟨2025, 1, 1, 0, 0⟩ 31 2
     (by decide) (by decide) (by decide)⟩

theorem charLt_iff (a b : Char) : a < b ↔ a.toNat < b.toNat := by
  rw [Char.lt_iff_val_lt_val]
  rfl

theorem charEq_iff (a b : Char) : a = b ↔ a.toNat = b.toNat := by
  constructor
  · intro h; rw [h]
  · intro h; apply Char.eq_of_val_eq; exact UInt32.toNat.inj h

theorem isDigit_bounds {c : Char} (h : c.isDigit = true) :
    48 ≤ c.toNat ∧ c.toNat ≤ 57 := by
  simp [Char.isDigit] at h
  exact h

theorem digit_lt_iff {x y : Char} (hx : x.isDigit = true) (hy : y.isDigit = true) :
    (x < y ↔ digVal x < digVal y) ∧ (x = y ↔ digVal x = digVal y) := by
  obtain ⟨h1, h2⟩ := isDigit_bounds hx
  obtain ⟨h3, h4⟩ := isDigit_bounds hy
  rw [charLt_iff, charEq_iff]
  unfold digVal
  constructor <;> constructor <;> intro h <;> omega

theorem ofNat_digit_toNat {k : Nat} (hk : k ≤ 9) :
    (Char.ofNat (48 + k)).toNat = 48 + k := by
  have hv : (48 + k).isValidChar := by left; omega
  simp [Char.ofNat, hv, Char.ofNatAux, Char.toNat, UInt32.toNat,
    BitVec.toNat_ofNatLt]

theorem ofNat_digit_isDigit {k : Nat} (hk : k ≤ 9) :
    (Char.ofNat (48 + k)).isDigit = true := by
  have h : (Char.ofNat (48 + k)).toNat = 48 + k := ofNat_digit_toNat hk
  simp [Char.isDigit]
  constructor
  · show (48 : UInt32).toNat ≤ (Char.ofNat (48 + k)).toNat
    rw [h]
    have h48 : (48 : UInt32).toNat = 48 := rfl
    omega
  · show (Char.ofNat (48 + k)).toNat ≤ (57 : UInt32).toNat
    rw [h]
    have h57 : (57 : UInt32).toNat = 57 := rfl
    omega

theorem digVal_ofNat {k : Nat} (hk : k ≤ 9) : digVal (Char.ofNat (48 + k)) = k := by
  unfold digVal
  rw [ofNat_digit_toNat hk]
  omega

/-- The `HH:MM` comparison of zero-padded time strings coincides with the
numeric order of `60*hour + minute` as long as both minute fields are
below 60 (the hour fields may be arbitrary two-digit numbers). -/
theorem pyStrLe_time {a b d e a2 b2 d2 e2 : Char}
    (ha : a.isDigit = true) (hb : b.isDigit = true)
    (hd : d.isDigit = true) (he : e.isDigit = true)
    (ha2 : a2.isDigit = true) (hb2 : b2.isDigit = true)
    (hd2 : d2.isDigit = true) (he2 : e2.isDigit = true)
    (hm1 : 10 * digVal d + digVal e < 60) (hm2 : 10 * digVal d2 + digVal e2 < 60) :
    pyStrLe [a, b, ':', d, e] [a2, b2, ':', d2, e2] =
      decide (60 * (10 * digVal a + digVal b) + (10 * digVal d + digVal e) ≤
              60 * (10 * digVal a2 + digVal b2) + (10 * digVal d2 + digVal e2)) := by
  have hva : digVal a ≤ 9 := by have := isDigit_bounds ha; unfold digVal; omega
  have hvb : digVal b ≤ 9 := by have := isDigit_bounds hb; unfold digVal; omega
  have hvd : digVal d ≤ 9 := by have := isDigit_bounds hd; unfold digVal; omega
  have hve : digVal e ≤ 9 := by have := isDigit_bounds he; unfold digVal; omega
  have hva2 : digVal a2 ≤ 9 := by have := isDigit_bounds ha2; unfold digVal; omega
  have hvb2 : digVal b2 ≤ 9 := by have := isDigit_bounds hb2; unfold digVal; omega
  have hvd2 : digVal d2 ≤ 9 := by have := isDigit_bounds hd2; unfold digVal; omega
  have hve2 : digVal e2 ≤ 9 := by have := isDigit_bounds he2; unfold digVal; omega
  simp only [pyStrLe, (digit_lt_iff ha ha2).1, (digit_lt_iff ha2 ha).1,
    (digit_lt_iff hb hb2).1, (digit_lt_iff hb2 hb).1,
    (digit_lt_iff hd hd2).1, (digit_lt_iff hd2 hd).1,
    (digit_lt_iff he he2).1, (digit_lt_iff he2 he).1,
    lt_self_iff_false, if_false]
  rcases Nat.lt_trichotomy (digVal a) (digVal a2) with h1 | h1 | h1
  · rw [if_pos h1]
    symm
    simp only [decide_eq_true_eq]
    omega
  · rw [if_neg (by omega), if_neg (by omega)]
    rcases Nat.lt_trichotomy (digVal b) (digVal b2) with h2 | h2 | h2
    · rw [if_pos h2]
      symm
      simp only [decide_eq_true_eq]
      omega
    · rw [if_neg (by omega), if_neg (by omega)]
      rcases Nat.lt_trichotomy (digVal d) (digVal d2) with h3 | h3 | h3
      · rw [if_pos h3]
        symm
        simp only [decide_eq_true_eq]
        omega
      · rw [if_neg (by omega), if_neg (by omega)]
        rcases Nat.lt_trichotomy (digVal e) (digVal e2) with h4 | h4 | h4
        · rw [if_pos h4]
          symm
          simp only [decide_eq_true_eq]
          omega
        · rw [if_neg (by omega), if_neg (by omega)]
          symm
          simp only [decide_eq_true_eq]
          omega
        · rw [if_neg (by omega), if_pos h4]
          symm
          simp only [decide_eq_false_iff_not]
          omega
      · rw [if_neg (by omega), if_pos h3]
        symm
        simp only [decide_eq_false_iff_not]
        omega
    · rw [if_neg (by omega), if_pos h2]
      symm
      simp only [decide_eq_false_iff_not]
      omega
  · rw [if_neg (by omega), if_pos h1]
    symm
    simp only [decide_eq_false_iff_not]
    omega

/-- Model of `now.strftime("%H:%M")`: zero-padded two-digit fields. -/
def fmt2 (n : Nat) : List Char := [Char.ofNat (48 + n / 10), Char.ofNat (48 + n % 10)]

def fmtHM (h m : Nat) : String := String.mk (fmt2 h ++ ':' :: fmt2 m)

/-- Numeric view of a matched `HH:MM` group. -/
def hmOfChars (l : List Char) : Nat × Nat :=
  match l with
  | [a, b, _, d, e] => (10 * digVal a + digVal b, 10 * digVal d + digVal e)
  | _ => (0, 0)

/-- Model of `coordinator._is_outage_active`: for each schedule entry matching
`(\d{2}:\d{2})\s*до\s*(\d{2}:\d{2})` at its start, test
`start <= current_time <= end` by Python string comparison; true as soon
as one entry passes. -/
def is_outage_active (schedule : List String) (currentTime : String) : Bool :=
  schedule.any fun tr =>
    match tryRange sepsDo tr.data with
    | some (p, _) => pyStrLe p.1 currentTime.data && pyStrLe currentTime.data p.2
    | none => false

/-- The activity predicate as the spec claims it: current time inside the
half-open window `[start, end)`. -/
def activeHalfOpenSpec (schedule : List String) (currentTime : String) : Bool :=
  schedule.any fun tr =>
    match tryRange sepsDo tr.data with
    | some (p, _) => pyStrLe p.1 currentTime.data && pyStrLt currentTime.data p.2
    | none => false

/-- Both minute fields of a parseable schedule entry are below 60 (all
real schedule entries satisfy this). -/
def minuteValid (tr : String) : Bool :=
  match tryRange sepsDo tr.data with
  | some (p, _) => (hmOfChars p.1).2 < 60 && (hmOfChars p.2).2 < 60
  | none => true

theorem fmtHM_data (h m : Nat) :
    (fmtHM h m).data = [Char.ofNat (48 + h / 10), Char.ofNat (48 + h % 10), ':',
      Char.ofNat (48 + m / 10), Char.ofNat (48 + m % 10)] := rfl

theorem hmOfChars_explicit (a b c d e : Char) :
    hmOfChars [a, b, c, d, e] = (10 * digVal a + digVal b, 10 * digVal d + digVal e) := rfl

theorem entry_active_iff (tr : String) (h mi : Nat) (hval : minuteValid tr = true)
    (hh : h ≤ 99) (hmi : mi < 60) :
    ((match tryRange sepsDo tr.data with
      | some (p, _) => pyStrLe p.1 (fmtHM h mi).data && pyStrLe (fmtHM h mi).data p.2
      | none => false) = true) ↔
    (∃ p r, tryRange sepsDo tr.data = some (p, r) ∧
      60 * (hmOfChars p.1).1 + (hmOfChars p.1).2 ≤ 60 * h + mi ∧
      60 * h + mi ≤ 60 * (hmOfChars p.2).1 + (hmOfChars p.2).2) := by
  have hh10 : h / 10 ≤ 9 := by omega
  have hh1 : h % 10 ≤ 9 := by omega
  have hm10 : mi / 10 ≤ 9 := by omega
  have hm1 : mi % 10 ≤ 9 := by omega
  cases hp : tryRange sepsDo tr.data with
  | none => simp [hp]
  | some v =>
    obtain ⟨p, r⟩ := v
    obtain ⟨⟨A, B, D, E, hpe, hA, hB, hD, hE⟩, ⟨A2, B2, D2, E2, hpe2, hA2, hB2, hD2, hE2⟩⟩ :=
      tryRange_shape hp
    simp only [minuteValid, hp, hpe, hpe2, hmOfChars_explicit, Bool.and_eq_true,
      decide_eq_true_eq] at hval
    obtain ⟨hv1, hv2⟩ := hval
    have hcur1 : 10 * digVal (Char.ofNat (48 + mi / 10)) + digVal (Char.ofNat (48 + mi % 10))
        < 60 := by
      rw [digVal_ofNat hm10, digVal_ofNat hm1]
      omega
    have e1 := pyStrLe_time hA hB hD hE (ofNat_digit_isDigit hh10) (ofNat_digit_isDigit hh1)
      (ofNat_digit_isDigit hm10) (ofNat_digit_isDigit hm1) hv1 hcur1
    have e2 := pyStrLe_time (ofNat_digit_isDigit hh10) (ofNat_digit_isDigit hh1)
      (ofNat_digit_isDigit hm10) (ofNat_digit_isDigit hm1) hA2 hB2 hD2 hE2 hcur1 hv2
    have hsplit : h = 10 * (h / 10) + h % 10 := by omega
    have msplit : mi = 10 * (mi / 10) + mi % 10 := by omega
    constructor
    · intro hact
      simp only [hp, hpe, hpe2, fmtHM_data, Bool.and_eq_true] at hact
      obtain ⟨hle1, hle2⟩ := hact
      rw [e1] at hle1
      rw [e2] at hle2
      simp only [decide_eq_true_eq, digVal_ofNat hh10, digVal_ofNat hh1,
        digVal_ofNat hm10, digVal_ofNat hm1] at hle1 hle2
      refine ⟨p, r, rfl, ?_, ?_⟩
      · rw [hpe, hmOfChars_explicit]
        omega
      · rw [hpe2, hmOfChars_explicit]
        omega
    · rintro ⟨p2, r2, hp2, hle1, hle2⟩
      injection hp2 with hp3
      injection hp3 with hp4 hp5
      subst hp4
      rw [hpe, hmOfChars_explicit] at hle1
      rw [hpe2, hmOfChars_explicit] at hle2
      show (pyStrLe p.1 (fmtHM h mi).data && pyStrLe (fmtHM h mi).data p.2) = true
      rw [hpe, hpe2, fmtHM_data, Bool.and_eq_true]
      constructor
      · rw [e1]
        simp only [decide_eq_true_eq, digVal_ofNat hh10, digVal_ofNat hh1,
          digVal_ofNat hm10, digVal_ofNat hm1]
        omega
      · rw [e2]
        simp only [decide_eq_true_eq, digVal_ofNat hh10, digVal_ofNat hh1,
          digVal_ofNat hm10, digVal_ofNat hm1]
        omega

/-- C2 (amended): with valid minute fields, the outage-active flag is true
iff the current clock time `h:mi` lies in the **closed** interval
`[start, end]` of at least one parseable range of the schedule (the code
compares `start <= current_time <= end`, so a moment exactly equal to a
range's end time **is** active); in particular the flag is false for an
empty schedule. -/
theorem C2_outage_active (schedule : List String) (h mi : Nat)
    (hval : ∀ tr ∈ schedule, minuteValid tr = true)
    (hh : h ≤ 99) (hmi : mi < 60) :
    is_outage_active [] (fmtHM h mi) = false ∧
    (is_outage_active schedule (fmtHM h mi) = true ↔
      ∃ tr ∈ schedule, ∃ p r, tryRange sepsDo tr.data = some (p, r) ∧
        60 * (hmOfChars p.1).1 + (hmOfChars p.1).2 ≤ 60 * h + mi ∧
        60 * h + mi ≤ 60 * (hmOfChars p.2).1 + (hmOfChars p.2).2) := by
  refine ⟨rfl, ?_⟩
  rw [is_outage_active, List.any_eq_true]
  constructor
  · rintro ⟨tr, htr, hact⟩
    exact ⟨tr, htr, (entry_active_iff tr h mi (hval tr htr) hh hmi).mp hact⟩
  · rintro ⟨tr, htr, hex⟩
    exact ⟨tr, htr, (entry_active_iff tr h mi (hval tr htr) hh hmi).mpr hex⟩

/-- Witness for C2 (amended): 11:00 lies inside `["10:00 до 12:00"]`. -/
theorem C2_outage_active_witness :
    (∀ tr ∈ ["10:00 до 12:00"], minuteValid tr = true) ∧
    (is_outage_active ["10:00 до 12:00"] (fmtHM 11 0) = true ↔
      ∃ tr ∈ ["10:00 до 12:00"], ∃ p r, tryRange sepsDo tr.data = some (p, r) ∧
        60 * (hmOfChars p.1).1 + (hmOfChars p.1).2 ≤ 60 * 11 + 0 ∧
        60 * 11 + 0 ≤ 60 * (hmOfChars p.2).1 + (hmOfChars p.2).2) :=
  ⟨by decide,
   (C2_outage_active ["10:00 до 12:00"] 11 0 (by decide) (by decide) (by decide)).2⟩

/-- C2 (counterexample): at a moment exactly equal to a range's end time
(12:00 for `"10:00 до 12:00"`) the code reports the outage as active,
while the claimed half-open `[start, end)` rule reports it inactive. -/
theorem C2_counterexample :
    is_outage_active ["10:00 до 12:00"] (fmtHM 12 0) = true ∧
    activeHalfOpenSpec ["10:00 до 12:00"] (fmtHM 12 0) = false := by
  constructor
  · decide
  · decide

/-- The four numeric groups matched by
`re.match(r"(\d{2}):(\d{2})\s*до\s*(\d{2}):(\d{2})", time_range)`,
shared by `_generate_ascii_timeline`, `_calculate_outage_minutes` and
`_generate_timeline_svg` in `sensor.py`. -/
def parseRange4 (l : List Char) : Option ((Nat × Nat) × (Nat × Nat)) :=
  (tryRange sepsDo l).map fun p => (hmOfChars p.1.1, hmOfChars p.1.2)

/-- The inner marking loop
`for i in range(start_block, min(end_block, 48)): blocks[i] = '█'`,
with the iteration count as the structural argument. -/
def markCells : List Bool → Nat → Nat → List Bool
  | b, _, 0 => b
  | b, i, n + 1 => markCells (b.set i true) (i + 1) n

/-- One schedule entry of `CEKSensor._generate_ascii_timeline`. -/
def timelineStep (b : List Bool) (tr : String) : List Bool :=
  match parseRange4 tr.data with
  | none => b
  | some pq =>
    let sb := pq.1.1 * 2 + (if 30 ≤ pq.1.2 then 1 else 0)
    let eb := pq.2.1 * 2 + (if 30 < pq.2.2 then 1 else 0)
    markCells b sb (min eb 48 - sb)

/-- The 48 half-hour cells of `CEKSensor._generate_ascii_timeline`
(`true` = outage block `█`, `false` = clear block `░`). -/
def timelineBlocks (schedule : List String) : List Bool :=
  schedule.foldl timelineStep (List.replicate 48 false)

/-- Model of `CEKSensor._generate_ascii_timeline`: hour-marker header plus the 48
block characters. -/
def generate_ascii_timeline (schedule : List String) : String :=
  String.mk ("00    06    12    18    24".data ++
    '\n' :: (timelineBlocks schedule).map fun o => if o then '█' else '░')

/-- The marking rule the code implements, per cell: some range satisfies
`start_block ≤ i < min end_block 48` with the code's block rounding. -/
def cellMarkedSpec (schedule : List String) (i : Nat) : Bool :=
  schedule.any fun tr =>
    match parseRange4 tr.data with
    | some pq => decide (pq.1.1 * 2 + (if 30 ≤ pq.1.2 then 1 else 0) ≤ i ∧
        i < min (pq.2.1 * 2 + (if 30 < pq.2.2 then 1 else 0)) 48)
    | none => false

/-- The marking rule the spec claims, per cell: some range overlaps the
half-hour interval `[30·i, 30·(i+1))`. -/
def cellOverlapSpec (schedule : List String) (i : Nat) : Bool :=
  schedule.any fun tr =>
    match parseRange4 tr.data with
    | some pq => decide (60 * pq.1.1 + pq.1.2 < 30 * (i + 1) ∧
        30 * i < 60 * pq.2.1 + pq.2.2)
    | none => false

theorem getD_set (b : List Bool) (i j : Nat) (x : Bool) :
    (b.set i x).getD j false = if i = j ∧ i < b.length then x else b.getD j false := by
  rcases eq_or_ne i j with rfl | hij
  · by_cases hi : i < b.length
    · simp [List.getD_eq_getElem?_getD, List.getElem?_set, hi]
    · simp [List.getD_eq_getElem?_getD, List.getElem?_set, hi]
      rw [List.getElem?_eq_none (by omega)]
      simp
  · simp [List.getD_eq_getElem?_getD, List.getElem?_set, hij]

theorem markCells_length : ∀ (n : Nat) (b : List Bool) (i : Nat),
    (markCells b i n).length = b.length := by
  intro n
  induction n with
  | zero => intro b i; rfl
  | succ k ih => intro b i; rw [markCells, ih, List.length_set]

theorem markCells_getD : ∀ (n : Nat) (b : List Bool) (i j : Nat), j < b.length →
    (markCells b i n).getD j false =
      (b.getD j false || decide (i ≤ j ∧ j < i + n)) := by
  intro n
  induction n with
  | zero =>
    intro b i j hj
    have hno : ¬(i ≤ j ∧ j < i + 0) := by omega
    simp [markCells, hno]
  | succ k ih =>
    intro b i j hj
    rw [markCells, ih (b.set i true) (i + 1) j (by rw [List.length_set]; exact hj),
      getD_set]
    by_cases hij : i = j
    · subst hij
      have h1 : i = i ∧ i < b.length := ⟨rfl, hj⟩
      have h2 : i ≤ i ∧ i < i + (k + 1) := by omega
      simp [h1, h2]
    · have h1 : ¬(i = j ∧ i < b.length) := fun hc => hij hc.1
      have h2 : (i + 1 ≤ j ∧ j < i + 1 + k) ↔ (i ≤ j ∧ j < i + (k + 1)) := by omega
      simp [h1, h2]

theorem timelineStep_length (b : List Bool) (tr : String) :
    (timelineStep b tr).length = b.length := by
  rw [timelineStep]
  cases hp : parseRange4 tr.data with
  | none => rfl
  | some pq => exact markCells_length _ _ _

theorem timelineFold (l : List String) : ∀ (b : List Bool), b.length = 48 →
    (l.foldl timelineStep b).length = 48 ∧
    ∀ j, j < 48 → (l.foldl timelineStep b).getD j false
      = (b.getD j false || cellMarkedSpec l j) := by
  induction l with
  | nil =>
    intro b hb
    exact ⟨hb, fun j hj => by simp [cellMarkedSpec]⟩
  | cons tr rest ih =>
    intro b hb
    have hsl : (timelineStep b tr).length = 48 := by rw [timelineStep_length, hb]
    obtain ⟨hlen, hget⟩ := ih (timelineStep b tr) hsl
    refine ⟨hlen, fun j hj => ?_⟩
    rw [List.foldl_cons, hget j hj]
    cases hp : parseRange4 tr.data with
    | none =>
      simp only [timelineStep, hp, cellMarkedSpec, List.any_cons]
      simp [cellMarkedSpec]
    | some pq =>
      simp only [timelineStep, hp]
      rw [markCells_getD _ _ _ _ (by rw [hb]; exact hj)]
      have harith :
          (pq.1.1 * 2 + (if 30 ≤ pq.1.2 then 1 else 0) ≤ j ∧
            j < pq.1.1 * 2 + (if 30 ≤ pq.1.2 then 1 else 0) +
              (min (pq.2.1 * 2 + (if 30 < pq.2.2 then 1 else 0)) 48 -
                (pq.1.1 * 2 + (if 30 ≤ pq.1.2 then 1 else 0)))) ↔
          (pq.1.1 * 2 + (if 30 ≤ pq.1.2 then 1 else 0) ≤ j ∧
            j < min (pq.2.1 * 2 + (if 30 < pq.2.2 then 1 else 0)) 48) := by
        omega
      simp only [cellMarkedSpec, List.any_cons, hp]
      rw [decide_eq_decide.mpr harith, Bool.or_assoc]

/-- C9 (amended): the ASCII timeline has exactly 48 half-hour cells, and a
cell `j` is marked "outage" iff some parseable range satisfies
`start_block ≤ j < min end_block 48`, where `start_block` rounds the start
down to its half-hour cell but `end_block` rounds the end **down** to the
hour when the end minute is ≤ 30 and to the half-hour when it is > 30 —
so the final partially covered cell of a range is left clear. -/
theorem C9_timeline (schedule : List String) :
    (timelineBlocks schedule).length = 48 ∧
    ∀ j, j < 48 → (timelineBlocks schedule).getD j false = cellMarkedSpec schedule j := by
  obtain ⟨hlen, hget⟩ := timelineFold schedule (List.replicate 48 false) (by simp)
  refine ⟨hlen, fun j hj => ?_⟩
  have hrep : (List.replicate 48 false).getD j false = false := by
    rw [List.getD_eq_getElem?_getD, List.getElem?_replicate, if_pos hj]
    rfl
  rw [timelineBlocks, hget j hj, hrep, Bool.false_or]

/-- Witness for C9 (amended) at a concrete schedule and cell. -/
theorem C9_timeline_witness :
    (timelineBlocks ["00:00 до 01:00"]).length = 48 ∧
    (0 : Nat) < 48 ∧
    (timelineBlocks ["00:00 до 01:00"]).getD 0 false = cellMarkedSpec ["00:00 до 01:00"] 0 :=
  ⟨(C9_timeline ["00:00 до 01:00"]).1, by decide,
   (C9_timeline ["00:00 до 01:00"]).2 0 (by decide)⟩

/-- C9 (counterexample): the range `00:00–00:30` overlaps the first
half-hour cell, yet the rendered timeline is entirely clear (its
`end_block` is `0`), refuting "a cell is marked iff some range overlaps
that half-hour". -/
theorem C9_counterexample :
    timelineBlocks ["00:00 до 00:30"] = List.replicate 48 false ∧
    cellOverlapSpec ["00:00 до 00:30"] 0 = true := by
  constructor
  · decide
  · decide

end Cek
